import Mathlib

/-!
# Verification of `support/fitsolarflux2.py`

Shallow embedding of the piecewise blackbody fit script. The script:

* loads a reference solar spectrum `(w, s)` and converts irradiance to
  flux density: `s *= w**2 / c * 1e26`;
* builds a Gaussian smoothing kernel `kern = Gaussian(linspace(0,1,100), 0.5, 0.1)`,
  normalizes it with `kern /= kern.sum()`, and convolves;
* merges smoothed and raw data: `S = r_[ss[w < 9], s[w >= 9]]`;
* loops over the bands delimited by `wr = [0, 0.25, 0.3, 0.4, 0.6, 1.0, 3, 15, 1000]`,
  selecting `j = (w > wr[i]) * (w <= wr[i+1])`, fitting
  `T[i], C[i] = planckfit(w[j], S[j], S[j]*0.01, (5800., 1.))[0]`, and writing
  `Sfit[j] = Planck(w[j], T[i]) * C[i]` into a zero-initialized `Sfit`.

Numbers are modelled as exact rationals. The external collaborators
(`mskpy.Planck`, `mskpy.planckfit`, the Gaussian profile) are abstract
function parameters; `planckfit` is `Except`-valued so that an external
failure can be propagated, exactly as an uncaught Python exception would be.
-/

namespace SolarFit

/-- Numpy boolean-mask selection `xs[mask]`: keep the elements of `xs`
at positions where `mask` is `true` (lists are taken index-aligned). -/
def select {α : Type} : List Bool → List α → List α
  | true :: ms, x :: xs => x :: select ms xs
  | false :: ms, _ :: xs => select ms xs
  | _, _ => []

/-- `numpy.linspace a b n`: `n` evenly spaced points from `a` to `b`. -/
def linspace (a b : ℚ) (n : ℕ) : List ℚ :=
  (List.range n).map (fun (i : ℕ) => a + (b - a) * (i : ℚ) / ((n : ℚ) - 1))

/-- The boolean mask `(w > lo) & (w <= hi)` over the wavelength list,
from line `j = (w > wr[i]) * (w <= wr[i + 1])` of the script. -/
def bandMask (lo hi : ℚ) (ws : List ℚ) : List Bool :=
  ws.map (fun x => decide (lo < x) && decide (x ≤ hi))

/-- Membership of a single wavelength `x` in band `i` of the edge list
`wr`: `wr[i] < x ∧ x ≤ wr[i+1]` (indices read with default `0`). -/
def maskAt (wredges : List ℚ) (i : ℕ) (x : ℚ) : Bool :=
  decide (wredges.getD i 0 < x) && decide (x ≤ wredges.getD (i + 1) 0)

/-- The masked assignment `Sfit[j] = Planck(w[j], T) * C`: positions where
the mask is `true` receive `planck w_k t * c`, others keep their value. -/
def writeBand (planck : ℚ → ℚ → ℚ) (t c : ℚ) :
    List Bool → List ℚ → List ℚ → List ℚ
  | true :: ms, wk :: wks, _ :: fs => planck wk t * c :: writeBand planck t c ms wks fs
  | false :: ms, _ :: wks, f :: fs => f :: writeBand planck t c ms wks fs
  | _, _, fs => fs

/-- Data loader, line `s *= w**2 / c * 1e26` of the script: the wavelength
grid is untouched, irradiance is converted elementwise to Jansky. -/
def convertFlux (c : ℚ) (w s : List ℚ) : List ℚ × List ℚ :=
  (w, List.zipWith (fun wi si => si * (wi ^ 2 / c * 10 ^ 26)) w s)

/-- The raw smoothing kernel `mskpy.Gaussian(linspace(0, 1, 100), 0.5, 0.1)`;
the Gaussian profile `g` lives in the external library and is a parameter
(`g x center width`). -/
def kern0 (g : ℚ → ℚ → ℚ → ℚ) : List ℚ :=
  (linspace 0 1 100).map (fun x => g x (1 / 2) (1 / 10))

/-- The normalized kernel after `kern /= kern.sum()`. -/
def kern (g : ℚ → ℚ → ℚ → ℚ) : List ℚ :=
  (kern0 g).map (fun x => x / (kern0 g).sum)

/-- The merged spectrum `S = r_[ss[w < 9], s[w >= 9]]`: concatenation of
the smoothed values at wavelengths below 9 with the raw values at 9 and
above. -/
def S (w ss s : List ℚ) : List ℚ :=
  select (w.map fun x => decide (x < 9)) ss ++ select (w.map fun x => decide (9 ≤ x)) s

/-- The spec-side merge, written as the elementwise selection the spec
describes: `merged[k] = smoothed[k]` if `wavelength[k] < 9`, else
`original[k]`. To be compared with `S` (refinement). -/
def mergeSpec : List ℚ → List ℚ → List ℚ → List ℚ
  | x :: ws, a :: smoothed, b :: raw =>
      (if x < 9 then a else b) :: mergeSpec ws smoothed raw
  | _, _, _ => []

/-- The hardcoded band edges `wr` of the script. -/
def wr : List ℚ := [0, 1/4, 3/10, 2/5, 3/5, 1, 3, 15, 1000]

/-- The mutable arrays of the script during the band loop: the wavelength
grid `w`, merged spectrum `S`, per-band temperature `T` and scale `C`
arrays, and the assembled fit `Sfit`. -/
structure ScriptState where
  w : List ℚ
  S : List ℚ
  T : List ℚ
  C : List ℚ
  Sfit : List ℚ
deriving DecidableEq, Repr

/-- The argument tuple of the call
`planckfit(w[j], S[j], S[j] * 0.01, (5800., 1.))` made at band `i`:
selected wavelengths, selected fluxes, per-sample uncertainties, and the
initial guess. -/
def fitCallArgs (wredges w Smerged : List ℚ) (i : ℕ) :
    List ℚ × List ℚ × List ℚ × (ℚ × ℚ) :=
  let j := bandMask (wredges.getD i 0) (wredges.getD (i + 1) 0) w
  (select j w, select j Smerged, (select j Smerged).map (fun x => x * (1 / 100)),
    ((5800 : ℚ), 1))

/-- One iteration of the band loop: call the external fitter on the band
selection, store its `(T, C)` at index `i`, and write the evaluated
blackbody into `Sfit` at the masked positions. The script performs no
check of its own (in particular no emptiness check): an external failure
is propagated unchanged. `pfit` models `lambda w, S, u, g: planckfit(w, S, u, g)[0]`. -/
def bandStep {ε : Type} (pfit : List ℚ → List ℚ → List ℚ → ℚ × ℚ → Except ε (ℚ × ℚ))
    (planck : ℚ → ℚ → ℚ) (wredges : List ℚ) (st : ScriptState) (i : ℕ) :
    Except ε ScriptState :=
  match pfit (fitCallArgs wredges st.w st.S i).1 (fitCallArgs wredges st.w st.S i).2.1
      (fitCallArgs wredges st.w st.S i).2.2.1 (fitCallArgs wredges st.w st.S i).2.2.2 with
  | .error e => .error e
  | .ok tc =>
      .ok { st with
        T := st.T.set i tc.1
        C := st.C.set i tc.2
        Sfit := writeBand planck tc.1 tc.2
          (bandMask (wredges.getD i 0) (wredges.getD (i + 1) 0) st.w) st.w st.Sfit }

/-- The whole band loop, starting from `C, T = zeros((2, len(wr)-1))` and
`Sfit = zeros(len(S))`. -/
def bandLoop {ε : Type} (pfit : List ℚ → List ℚ → List ℚ → ℚ × ℚ → Except ε (ℚ × ℚ))
    (planck : ℚ → ℚ → ℚ) (wredges : List ℚ) (w Smerged : List ℚ) :
    Except ε ScriptState :=
  (List.range (wredges.length - 1)).foldlM (bandStep pfit planck wredges)
    ⟨w, Smerged, List.replicate (wredges.length - 1) 0,
      List.replicate (wredges.length - 1) 0, List.replicate Smerged.length 0⟩

/-- Decidable strict monotonicity of a list of rationals (used to state
the "strictly increasing" hypotheses of the spec). -/
def strictIncr : List ℚ → Bool
  | a :: b :: l => decide (a < b) && strictIncr (b :: l)
  | _ => true

/-- A concrete total stand-in for the external fitter, used to evaluate
the repository code at specific inputs: it always returns `(7, 11)`. -/
def pfitConst : List ℚ → List ℚ → List ℚ → ℚ × ℚ → Except Unit (ℚ × ℚ) :=
  fun _ _ _ _ => .ok (7, 11)

/-- A concrete stand-in for the external Planck function, used to evaluate
the repository code at specific inputs. -/
def planckLin (x t : ℚ) : ℚ := x * t

/-- Invariant of the band loop after the first `m` iterations: the
wavelength and merged-flux arrays are untouched, the coefficient arrays
keep their allocated length, `Sfit` keeps its allocated length, positions
hit by none of the first `m` bands are still zero, and positions hit by
band `i < m` hold `Planck(w_k, T_i) * C_i`. -/
def LoopInv (planck : ℚ → ℚ → ℚ) (wredges ws Sm : List ℚ) (m : ℕ)
    (st : ScriptState) : Prop :=
  st.w = ws ∧ st.S = Sm ∧
  st.T.length = wredges.length - 1 ∧ st.C.length = wredges.length - 1 ∧
  st.Sfit.length = Sm.length ∧
  (∀ k, k < ws.length → (∀ i, i < m → maskAt wredges i (ws.getD k 0) = false) →
    st.Sfit.getD k 0 = 0) ∧
  (∀ k, k < ws.length → ∀ i, i < m → maskAt wredges i (ws.getD k 0) = true →
    st.Sfit.getD k 0 = planck (ws.getD k 0) (st.T.getD i 0) * st.C.getD i 0)

end SolarFit

namespace SolarFit

/-! ## Generic list lemmas -/

theorem getD_map_lt {α β : Type} (f : α → β) (l : List α) (k : ℕ) (hk : k < l.length)
    (da : α) (db : β) : (l.map f).getD k db = f (l.getD k da) := by
  rw [List.getD_eq_getElem _ _ (by simpa using hk), List.getD_eq_getElem _ _ hk,
    List.getElem_map]

theorem getD_set_ne {α : Type} (l : List α) (i k : ℕ) (a d : α) (h : i ≠ k) :
    (l.set i a).getD k d = l.getD k d := by
  rw [List.getD_eq_getElem?_getD, List.getD_eq_getElem?_getD, List.getElem?_set_ne h]

theorem getD_set_self {α : Type} (l : List α) (i : ℕ) (a d : α) (h : i < l.length) :
    (l.set i a).getD i d = a := by
  rw [List.getD_eq_getElem?_getD, List.getElem?_set_self h]
  rfl

theorem getD_replicate_zero (n k : ℕ) : (List.replicate n (0 : ℚ)).getD k 0 = 0 := by
  rw [List.getD_eq_getElem?_getD, List.getElem?_replicate]
  split <;> rfl

theorem getD_zipWith {α β γ : Type} (f : α → β → γ) (da : α) (db : β) (dc : γ)
    (a : List α) (b : List β) (k : ℕ) (ha : k < a.length) (hb : k < b.length) :
    (List.zipWith f a b).getD k dc = f (a.getD k da) (b.getD k db) := by
  rw [List.getD_eq_getElem _ _ (by rw [List.length_zipWith]; omega),
    List.getElem_zipWith, List.getD_eq_getElem _ _ ha, List.getD_eq_getElem _ _ hb]

theorem sum_map_div (l : List ℚ) (s : ℚ) :
    (l.map (fun x => x / s)).sum = l.sum / s := by
  induction l with
  | nil => simp
  | cons a l ih => simp [ih, add_div]

/-! ## Strictly increasing lists -/

theorem strictIncr_pairwise : ∀ l : List ℚ, strictIncr l = true → List.Pairwise (· < ·) l
  | [], _ => List.Pairwise.nil
  | [_], _ => by simp
  | a :: b :: l, h => by
      have hab : a < b ∧ strictIncr (b :: l) = true := by
        simpa [strictIncr] using h
      have hp := strictIncr_pairwise (b :: l) hab.2
      refine List.pairwise_cons.mpr ⟨?_, hp⟩
      intro x hx
      rcases List.mem_cons.mp hx with rfl | hx
      · exact hab.1
      · exact lt_trans hab.1 ((List.pairwise_cons.mp hp).1 x hx)

theorem strictIncr_getD (l : List ℚ) (h : strictIncr l = true) :
    ∀ i j, i < j → j < l.length → l.getD i 0 < l.getD j 0 := by
  intro i j hij hj
  have hp := strictIncr_pairwise l h
  have hget := List.pairwise_iff_get.mp hp ⟨i, lt_trans hij hj⟩ ⟨j, hj⟩ hij
  rw [List.getD_eq_getElem _ _ (lt_trans hij hj), List.getD_eq_getElem _ _ hj]
  simpa [List.get_eq_getElem] using hget

theorem edges_getD_le (l : List ℚ) (h : strictIncr l = true) :
    ∀ a b, a ≤ b → b < l.length → l.getD a 0 ≤ l.getD b 0 := by
  intro a b hab hb
  rcases eq_or_lt_of_le hab with rfl | hlt
  · exact le_refl _
  · exact le_of_lt (strictIncr_getD l h a b hlt hb)

/-! ## C7: the smoothing kernel -/

/-- C7: the smoothing kernel is the Gaussian profile sampled at the 100
points of `linspace 0 1 100` with center `0.5` and width `0.1`; the grid
has 100 points running from 0 to 1; and after the normalization
`kern /= kern.sum()` the kernel sums to exactly 1 (in particular to 1
within `1e-9`). The Gaussian profile is abstract; only positivity of the
sampled values is used. -/
theorem C7_kernel_normalization (g : ℚ → ℚ → ℚ → ℚ)
    (hpos : (kern0 g).all (fun x => decide (0 < x)) = true) :
    kern0 g = (linspace 0 1 100).map (fun x => g x (1 / 2) (1 / 10)) ∧
    (linspace 0 1 100).length = 100 ∧
    (linspace 0 1 100).getD 0 0 = 0 ∧
    (linspace 0 1 100).getD 99 0 = 1 ∧
    (kern g).length = 100 ∧
    (kern g).sum = 1 ∧
    |(kern g).sum - 1| ≤ 1 / 1000000000 := by
  have hposs : ∀ x ∈ kern0 g, 0 < x := by
    intro x hx
    simpa using List.all_eq_true.mp hpos x hx
  have hlen0 : (kern0 g).length = 100 := by
    rw [kern0, List.length_map, linspace, List.length_map, List.length_range]
  have hne : kern0 g ≠ [] := by
    intro hnil
    rw [hnil] at hlen0
    simp at hlen0
  have hsumpos : 0 < (kern0 g).sum := List.sum_pos _ hposs hne
  have hsum1 : (kern g).sum = 1 := by
    rw [kern, sum_map_div, div_self (ne_of_gt hsumpos)]
  have hr : (List.range 100).length = 100 := List.length_range 100
  have h0 : (linspace 0 1 100).getD 0 0 = 0 := by
    rw [linspace, getD_map_lt _ _ 0 (by rw [hr]; norm_num) 0 0,
      List.getD_eq_getElem _ _ (by rw [hr]; norm_num), List.getElem_range]
    norm_num
  have h99 : (linspace 0 1 100).getD 99 0 = 1 := by
    rw [linspace, getD_map_lt _ _ 99 (by rw [hr]; norm_num) 0 0,
      List.getD_eq_getElem _ _ (by rw [hr]; norm_num), List.getElem_range]
    norm_num
  refine ⟨rfl, by rw [linspace, List.length_map, List.length_range], h0, h99, ?_, hsum1, ?_⟩
  · rw [kern, List.length_map, hlen0]
  · rw [hsum1]
    norm_num

/-- Witness for C7 at the constant profile `g = 1`. -/
theorem C7_kernel_normalization_witness :
    (kern0 (fun _ _ _ => (1 : ℚ))).all (fun x => decide (0 < x)) = true ∧
    (kern (fun _ _ _ => (1 : ℚ))).sum = 1 := by
  refine ⟨by decide, ?_⟩
  exact (C7_kernel_normalization (fun _ _ _ => (1 : ℚ)) (by decide)).2.2.2.2.2.1

/-! ## C8: the irradiance-to-Jansky conversion -/

/-- C8: the loader leaves the wavelength grid unchanged, preserves the
sequence length, and converts irradiance elementwise by
`flux_Jy = irradiance * wavelength^2 / speed_of_light * 1e26`. -/
theorem C8_flux_conversion (c : ℚ) (ws ir : List ℚ) (hlen : ir.length = ws.length) :
    (convertFlux c ws ir).1 = ws ∧
    (convertFlux c ws ir).2.length = ir.length ∧
    (∀ k, k < ir.length →
      (convertFlux c ws ir).2.getD k 0 =
        ir.getD k 0 * (ws.getD k 0) ^ 2 / c * 10 ^ 26) := by
  refine ⟨rfl, ?_, ?_⟩
  · simp [convertFlux, List.length_zipWith, hlen]
  · intro k hk
    have hz := getD_zipWith (fun wi si => si * (wi ^ 2 / c * 10 ^ 26)) 0 0 0 ws ir k
      (by omega) hk
    show (List.zipWith (fun wi si => si * (wi ^ 2 / c * 10 ^ 26)) ws ir).getD k 0 = _
    rw [hz]
    ring

/-- Witness for C8 at `c = 3`, one sample `(wavelength, irradiance) = (2, 5)`. -/
theorem C8_flux_conversion_witness :
    ([(5 : ℚ)] : List ℚ).length = ([(2 : ℚ)] : List ℚ).length ∧
    (convertFlux 3 [2] [5]).1 = [2] ∧
    (convertFlux 3 [2] [5]).2.getD 0 0 = 5 * 2 ^ 2 / 3 * 10 ^ 26 :=
  ⟨rfl, (C8_flux_conversion 3 [2] [5] rfl).1,
    (C8_flux_conversion 3 [2] [5] rfl).2.2 0 (by decide)⟩

/-! ## C9: band count, edges, uncertainties, initial guess -/

/-- C9: the loop runs over exactly the 8 band indices `0..7` determined by
the fixed edge list `[0, 0.25, 0.3, 0.4, 0.6, 1.0, 3, 15, 1000]`, and every
fitter call receives the mask-selected wavelengths and fluxes, per-sample
uncertainty `0.01 *` the selected merged flux, and initial guess
`(5800, 1)`. -/
theorem C9_fit_invocation :
    List.range (wr.length - 1) = [0, 1, 2, 3, 4, 5, 6, 7] ∧
    wr = [0, 1/4, 3/10, 2/5, 3/5, 1, 3, 15, 1000] ∧
    (∀ wredges ws Sm i,
      (fitCallArgs wredges ws Sm i).2.2.2 = (5800, 1) ∧
      (fitCallArgs wredges ws Sm i).1 =
        select (bandMask (wredges.getD i 0) (wredges.getD (i + 1) 0) ws) ws ∧
      (fitCallArgs wredges ws Sm i).2.1 =
        select (bandMask (wredges.getD i 0) (wredges.getD (i + 1) 0) ws) Sm ∧
      (∀ k, ((fitCallArgs wredges ws Sm i).2.2.1).getD k 0 =
        ((fitCallArgs wredges ws Sm i).2.1).getD k 0 * (1 / 100))) := by
  refine ⟨by decide, rfl, ?_⟩
  intro wredges ws Sm i
  refine ⟨rfl, rfl, rfl, ?_⟩
  intro k
  by_cases hk : k < ((fitCallArgs wredges ws Sm i).2.1).length
  · exact getD_map_lt (fun x => x * (1 / 100)) _ k hk 0 0
  · push_neg at hk
    rw [show (fitCallArgs wredges ws Sm i).2.2.1 =
        ((fitCallArgs wredges ws Sm i).2.1).map (fun x => x * (1 / 100)) from rfl,
      List.getD_eq_default _ _ (by simpa using hk), List.getD_eq_default _ _ hk]
    norm_num

end SolarFit

namespace SolarFit

/-! ## C2: the merge is an elementwise selection -/

theorem select_all_false {α : Type} :
    ∀ (ms : List Bool) (xs : List α), (∀ b ∈ ms, b = false) → select ms xs = []
  | [], xs, _ => by cases xs <;> rfl
  | m :: ms, [], _ => by cases m <;> rfl
  | m :: ms, x :: xs, h => by
      have hm : m = false := h m (List.mem_cons_self _ _)
      subst hm
      simpa [select] using select_all_false ms xs (fun b hb => h b (List.mem_cons_of_mem _ hb))

theorem select_all_true {α : Type} :
    ∀ (ms : List Bool) (xs : List α), ms.length = xs.length →
      (∀ b ∈ ms, b = true) → select ms xs = xs
  | [], [], _, _ => rfl
  | [], _ :: _, h, _ => by simp at h
  | _ :: _, [], h, _ => by simp at h
  | m :: ms, x :: xs, h, hall => by
      have hm : m = true := hall m (List.mem_cons_self _ _)
      subst hm
      simp only [select, List.cons.injEq, true_and]
      exact select_all_true ms xs (by simpa using h) (fun b hb => hall b (List.mem_cons_of_mem _ hb))

theorem mergeSpec_all_ge :
    ∀ (ws sst st : List ℚ), (∀ x ∈ ws, ¬ x < 9) → sst.length = ws.length →
      st.length = ws.length → mergeSpec ws sst st = st
  | [], sst, st, _, _, h2 => by
      cases st with
      | nil => cases sst <;> rfl
      | cons a t => simp at h2
  | x :: ws, sst, st, h, h1, h2 => by
      rcases sst with _ | ⟨a, sst⟩
      · simp at h1
      rcases st with _ | ⟨b, st⟩
      · simp at h2
      have hx : ¬ x < 9 := h x (List.mem_cons_self _ _)
      simp only [mergeSpec, if_neg hx, List.cons.injEq, true_and]
      exact mergeSpec_all_ge ws sst st (fun y hy => h y (List.mem_cons_of_mem _ hy))
        (by simpa using h1) (by simpa using h2)

theorem mergeSpec_length :
    ∀ (ws ss s : List ℚ), ss.length = ws.length → s.length = ws.length →
      (mergeSpec ws ss s).length = ws.length
  | [], ss, s, _, _ => by cases ss <;> cases s <;> rfl
  | x :: ws, ss, s, h1, h2 => by
      rcases ss with _ | ⟨a, sst⟩
      · simp at h1
      rcases s with _ | ⟨b, st⟩
      · simp at h2
      simp only [mergeSpec, List.length_cons, Nat.succ.injEq]
      exact mergeSpec_length ws sst st (by simpa using h1) (by simpa using h2)

theorem mergeSpec_getD :
    ∀ (ws ss s : List ℚ) (k : ℕ), k < ws.length → ss.length = ws.length →
      s.length = ws.length →
      (mergeSpec ws ss s).getD k 0 = if ws.getD k 0 < 9 then ss.getD k 0 else s.getD k 0
  | [], _, _, k, hk, _, _ => by simp at hk
  | x :: ws, ss, s, k, hk, h1, h2 => by
      rcases ss with _ | ⟨a, sst⟩
      · simp at h1
      rcases s with _ | ⟨b, st⟩
      · simp at h2
      cases k with
      | zero => simp [mergeSpec, List.getD_cons_zero]
      | succ k =>
          simp only [mergeSpec, List.getD_cons_succ]
          exact mergeSpec_getD ws sst st k (by simpa using hk) (by simpa using h1)
            (by simpa using h2)

theorem S_eq_mergeSpec :
    ∀ (ws ss s : List ℚ), List.Pairwise (· < ·) ws → ss.length = ws.length →
      s.length = ws.length → S ws ss s = mergeSpec ws ss s
  | [], ss, s, _, h1, h2 => by
      have hss : ss = [] := List.length_eq_zero.mp (by simpa using h1)
      have hs : s = [] := List.length_eq_zero.mp (by simpa using h2)
      subst hss hs
      rfl
  | x :: ws, ss, s, hp, h1, h2 => by
      rcases ss with _ | ⟨a, sst⟩
      · simp at h1
      rcases s with _ | ⟨b, st⟩
      · simp at h2
      obtain ⟨hhead, htail⟩ := List.pairwise_cons.mp hp
      by_cases hx : x < 9
      · have h9 : ¬ (9 ≤ x) := not_le.mpr hx
        show select (decide (x < 9) :: ws.map fun y => decide (y < 9)) (a :: sst) ++
          select (decide (9 ≤ x) :: ws.map fun y => decide (9 ≤ y)) (b :: st) = _
        rw [decide_eq_true hx, decide_eq_false h9]
        show a :: (select (ws.map fun y => decide (y < 9)) sst ++
          select (ws.map fun y => decide (9 ≤ y)) st) = _
        rw [show mergeSpec (x :: ws) (a :: sst) (b :: st) =
            (if x < 9 then a else b) :: mergeSpec ws sst st from rfl, if_pos hx]
        exact congrArg (a :: ·)
          (S_eq_mergeSpec ws sst st htail (by simpa using h1) (by simpa using h2))
      · have h9 : 9 ≤ x := not_lt.mp hx
        have hws9 : ∀ y ∈ ws, ¬ y < 9 :=
          fun y hy => not_lt.mpr (le_of_lt (lt_of_le_of_lt h9 (hhead y hy)))
        show select (decide (x < 9) :: ws.map fun y => decide (y < 9)) (a :: sst) ++
          select (decide (9 ≤ x) :: ws.map fun y => decide (9 ≤ y)) (b :: st) = _
        rw [decide_eq_false hx, decide_eq_true h9]
        show select (ws.map fun y => decide (y < 9)) sst ++
          (b :: select (ws.map fun y => decide (9 ≤ y)) st) = _
        rw [select_all_false (ws.map fun y => decide (y < 9)) sst (by
          intro c hc
          obtain ⟨y, hy, rfl⟩ := List.mem_map.mp hc
          exact decide_eq_false (hws9 y hy))]
        rw [select_all_true (ws.map fun y => decide (9 ≤ y)) st
          (by rw [List.length_map]; exact (by simpa using h2 : st.length = ws.length).symm)
          (by
            intro c hc
            obtain ⟨y, hy, rfl⟩ := List.mem_map.mp hc
            exact decide_eq_true (le_of_lt (lt_of_le_of_lt h9 (hhead y hy))))]
        rw [show mergeSpec (x :: ws) (a :: sst) (b :: st) =
            (if x < 9 then a else b) :: mergeSpec ws sst st from rfl, if_neg hx]
        rw [mergeSpec_all_ge ws sst st hws9 (by simpa using h1) (by simpa using h2)]
        rfl

/-- C2: for a strictly increasing wavelength grid, the concatenation
`S = r_[ss[w < 9], s[w >= 9]]` equals the elementwise selection
(smoothed below 9, raw at and above 9), index for index; a sample at
exactly wavelength 9 takes the unsmoothed value. -/
theorem C2_merge_elementwise (ws ss s : List ℚ) (hsort : strictIncr ws = true)
    (h1 : ss.length = ws.length) (h2 : s.length = ws.length) :
    S ws ss s = mergeSpec ws ss s ∧
    (S ws ss s).length = ws.length ∧
    (∀ k, k < ws.length →
      (S ws ss s).getD k 0 = if ws.getD k 0 < 9 then ss.getD k 0 else s.getD k 0) ∧
    (∀ k, k < ws.length → ws.getD k 0 = 9 → (S ws ss s).getD k 0 = s.getD k 0) := by
  have heq := S_eq_mergeSpec ws ss s (strictIncr_pairwise ws hsort) h1 h2
  refine ⟨heq, ?_, ?_, ?_⟩
  · rw [heq]
    exact mergeSpec_length ws ss s h1 h2
  · intro k hk
    rw [heq]
    exact mergeSpec_getD ws ss s k hk h1 h2
  · intro k hk hk9
    rw [heq, mergeSpec_getD ws ss s k hk h1 h2, hk9, if_neg (lt_irrefl (9 : ℚ))]

/-- Witness for C2 on the grid `[1, 9, 12]`: the sample at exactly 9
takes the raw value `200`, not the smoothed `20`. -/
theorem C2_merge_elementwise_witness :
    (strictIncr [1, 9, 12] = true ∧
      ([10, 20, 30] : List ℚ).length = ([1, 9, 12] : List ℚ).length ∧
      ([100, 200, 300] : List ℚ).length = ([1, 9, 12] : List ℚ).length) ∧
    (S [1, 9, 12] [10, 20, 30] [100, 200, 300]).getD 1 0 = 200 := by
  refine ⟨⟨by decide, rfl, rfl⟩, ?_⟩
  rw [(C2_merge_elementwise [1, 9, 12] [10, 20, 30] [100, 200, 300]
    (by decide) rfl rfl).2.2.2 1 (by decide) (by decide)]
  rfl

end SolarFit

namespace SolarFit

/-! ## C3: the band masks partition the interval (first edge, last edge] -/

theorem maskAt_iff (wredges : List ℚ) (i : ℕ) (x : ℚ) :
    maskAt wredges i x = true ↔
      wredges.getD i 0 < x ∧ x ≤ wredges.getD (i + 1) 0 := by
  simp [maskAt]

theorem maskAt_disjoint (wredges : List ℚ) (hs : strictIncr wredges = true) (x : ℚ)
    (i j : ℕ) (hij : i < j) (hj : j < wredges.length - 1)
    (hi : maskAt wredges i x = true) (hjx : maskAt wredges j x = true) : False := by
  have hi2 := (maskAt_iff wredges i x).mp hi
  have hj2 := (maskAt_iff wredges j x).mp hjx
  have hle : wredges.getD (i + 1) 0 ≤ wredges.getD j 0 :=
    edges_getD_le wredges hs (i + 1) j hij (by omega)
  linarith [hi2.2, hj2.1]

theorem maskAt_exists_of_mem (wredges : List ℚ) (x : ℚ) :
    ∀ m, 1 ≤ m → m ≤ wredges.length - 1 → wredges.getD 0 0 < x →
      x ≤ wredges.getD m 0 → ∃ i, i < m ∧ maskAt wredges i x = true := by
  intro m
  induction m with
  | zero => omega
  | succ m ih =>
      intro _ hm hlow hup
      by_cases hx : x ≤ wredges.getD m 0
      · rcases Nat.eq_zero_or_pos m with rfl | hmpos
        · exact absurd hx (not_le.mpr hlow)
        · obtain ⟨i, hi, hmask⟩ := ih hmpos (by omega) hlow hx
          exact ⟨i, by omega, hmask⟩
      · exact ⟨m, by omega, (maskAt_iff wredges m x).mpr ⟨not_le.mp hx, hup⟩⟩

theorem maskAt_union (wredges : List ℚ) (hs : strictIncr wredges = true)
    (hlen : 2 ≤ wredges.length) (x : ℚ) :
    (∃ i, i < wredges.length - 1 ∧ maskAt wredges i x = true) ↔
      (wredges.getD 0 0 < x ∧ x ≤ wredges.getD (wredges.length - 1) 0) := by
  constructor
  · rintro ⟨i, hi, hm⟩
    have hm2 := (maskAt_iff wredges i x).mp hm
    constructor
    · rcases Nat.eq_zero_or_pos i with rfl | hipos
      · exact hm2.1
      · exact lt_of_le_of_lt (edges_getD_le wredges hs 0 i (Nat.zero_le i) (by omega)) hm2.1
    · exact le_trans hm2.2
        (edges_getD_le wredges hs (i + 1) (wredges.length - 1) (by omega) (by omega))
  · rintro ⟨h1, h2⟩
    exact maskAt_exists_of_mem wredges x (wredges.length - 1) (by omega) (le_refl _) h1 h2

/-- C3: for a strictly increasing edge list with at least 2 entries, the
per-band masks `(wavelength > edge[i]) & (wavelength <= edge[i+1])` are
pairwise disjoint and cover exactly `(first edge, last edge]`; with the
script's edges `[0, ..., 1000]`, wavelength 0 lies in no band and
wavelength 1000 lies in the last band (band 7). -/
theorem C3_band_masks_partition (wredges : List ℚ) (hs : strictIncr wredges = true)
    (hlen : 2 ≤ wredges.length) :
    (∀ x i j, i < wredges.length - 1 → j < wredges.length - 1 → i ≠ j →
      ¬(maskAt wredges i x = true ∧ maskAt wredges j x = true)) ∧
    (∀ x, (∃ i, i < wredges.length - 1 ∧ maskAt wredges i x = true) ↔
      (wredges.getD 0 0 < x ∧ x ≤ wredges.getD (wredges.length - 1) 0)) ∧
    (∀ i, i < wr.length - 1 → maskAt wr i 0 = false) ∧
    maskAt wr 7 1000 = true := by
  refine ⟨?_, fun x => maskAt_union wredges hs hlen x, ?_, by norm_num [maskAt, wr]⟩
  · rintro x i j hi hj hne ⟨hmi, hmj⟩
    rcases lt_trichotomy i j with h | h | h
    · exact maskAt_disjoint wredges hs x i j h hj hmi hmj
    · exact hne h
    · exact maskAt_disjoint wredges hs x j i h hi hmj hmi
  · intro i hi
    have hi8 : i < 8 := by simpa [wr] using hi
    interval_cases i <;> norm_num [maskAt, wr]

/-- Witness for C3 at the script's edge list: sample `1/2` cannot lie in
both band 3 and band 5, and `1000` lies in the last band. -/
theorem C3_band_masks_partition_witness :
    (strictIncr wr = true ∧ 2 ≤ wr.length) ∧
    ¬(maskAt wr 3 (1/2) = true ∧ maskAt wr 5 (1/2) = true) ∧
    maskAt wr 7 1000 = true := by
  have h := C3_band_masks_partition wr (by norm_num [strictIncr, wr]) (by norm_num [wr])
  exact ⟨⟨by norm_num [strictIncr, wr], by norm_num [wr]⟩,
    h.1 (1/2) 3 5 (by norm_num [wr]) (by norm_num [wr]) (by norm_num), h.2.2.2⟩

end SolarFit

namespace SolarFit

/-! ## Pointwise behaviour of the masked assignment -/

theorem writeBand_length (p : ℚ → ℚ → ℚ) (t c : ℚ) :
    ∀ (ms : List Bool) (wks fs : List ℚ), (writeBand p t c ms wks fs).length = fs.length
  | [], wks, fs => by cases wks <;> rfl
  | m :: ms, [], fs => by cases m <;> rfl
  | true :: ms, wk :: wks, [] => rfl
  | false :: ms, wk :: wks, [] => rfl
  | true :: ms, wk :: wks, f :: fs => by
      simp [writeBand, writeBand_length p t c ms wks fs]
  | false :: ms, wk :: wks, f :: fs => by
      simp [writeBand, writeBand_length p t c ms wks fs]

theorem writeBand_getD_false (p : ℚ → ℚ → ℚ) (t c : ℚ) :
    ∀ (ms : List Bool) (wks fs : List ℚ) (k : ℕ) (d : ℚ), ms.getD k false = false →
      (writeBand p t c ms wks fs).getD k d = fs.getD k d
  | [], wks, fs, _, _, _ => by cases wks <;> rfl
  | m :: ms, [], fs, _, _, _ => by cases m <;> rfl
  | true :: ms, wk :: wks, [], _, _, _ => rfl
  | false :: ms, wk :: wks, [], _, _, _ => rfl
  | true :: ms, wk :: wks, f :: fs, 0, d, h => by simp at h
  | true :: ms, wk :: wks, f :: fs, k + 1, d, h => by
      simpa [writeBand, List.getD_cons_succ] using
        writeBand_getD_false p t c ms wks fs k d (by simpa using h)
  | false :: ms, wk :: wks, f :: fs, 0, d, _ => by simp [writeBand, List.getD_cons_zero]
  | false :: ms, wk :: wks, f :: fs, k + 1, d, h => by
      simpa [writeBand, List.getD_cons_succ] using
        writeBand_getD_false p t c ms wks fs k d (by simpa using h)

theorem writeBand_getD_true (p : ℚ → ℚ → ℚ) (t c : ℚ) :
    ∀ (ms : List Bool) (wks fs : List ℚ) (k : ℕ), k < wks.length → k < fs.length →
      ms.getD k false = true →
      (writeBand p t c ms wks fs).getD k 0 = p (wks.getD k 0) t * c
  | [], wks, fs, k, _, _, h => by simp at h
  | m :: ms, [], fs, k, hw, _, _ => by simp at hw
  | true :: ms, wk :: wks, [], k, _, hf, _ => by simp at hf
  | false :: ms, wk :: wks, [], k, _, hf, _ => by simp at hf
  | true :: ms, wk :: wks, f :: fs, 0, _, _, _ => by simp [writeBand, List.getD_cons_zero]
  | false :: ms, wk :: wks, f :: fs, 0, _, _, h => by simp at h
  | true :: ms, wk :: wks, f :: fs, k + 1, hw, hf, h => by
      simpa [writeBand, List.getD_cons_succ] using
        writeBand_getD_true p t c ms wks fs k (by simpa using hw) (by simpa using hf)
          (by simpa using h)
  | false :: ms, wk :: wks, f :: fs, k + 1, hw, hf, h => by
      simpa [writeBand, List.getD_cons_succ] using
        writeBand_getD_true p t c ms wks fs k (by simpa using hw) (by simpa using hf)
          (by simpa using h)

theorem bandMask_length (lo hi : ℚ) (ws : List ℚ) :
    (bandMask lo hi ws).length = ws.length := by
  rw [bandMask, List.length_map]

theorem bandMask_getD_maskAt (wredges ws : List ℚ) (i k : ℕ) (hk : k < ws.length) :
    (bandMask (wredges.getD i 0) (wredges.getD (i + 1) 0) ws).getD k false =
      maskAt wredges i (ws.getD k 0) := by
  rw [bandMask, getD_map_lt _ _ k hk 0 false]
  rfl

/-! ## C10: frame property of one loop iteration -/

/-- C10: iteration `i` of the band loop changes only entry `i` of the
temperature and scale arrays and only the `Sfit` positions selected by
band `i`'s mask; the wavelength and merged-flux arrays, all other `T` and
`C` entries, all unselected `Sfit` positions, and all array lengths are
untouched. -/
theorem C10_band_step_frame {ε : Type}
    (pfit : List ℚ → List ℚ → List ℚ → ℚ × ℚ → Except ε (ℚ × ℚ))
    (planck : ℚ → ℚ → ℚ) (wredges : List ℚ) (st st' : ScriptState) (i : ℕ)
    (hstep : bandStep pfit planck wredges st i = .ok st') :
    st'.w = st.w ∧ st'.S = st.S ∧
    st'.T.length = st.T.length ∧ st'.C.length = st.C.length ∧
    st'.Sfit.length = st.Sfit.length ∧
    (∀ k, k ≠ i → st'.T.getD k 0 = st.T.getD k 0) ∧
    (∀ k, k ≠ i → st'.C.getD k 0 = st.C.getD k 0) ∧
    (∀ k, k < st.w.length → maskAt wredges i (st.w.getD k 0) = false →
      st'.Sfit.getD k 0 = st.Sfit.getD k 0) ∧
    (∀ k, st.w.length ≤ k → st'.Sfit.getD k 0 = st.Sfit.getD k 0) := by
  unfold bandStep at hstep
  cases hpf : pfit (fitCallArgs wredges st.w st.S i).1 (fitCallArgs wredges st.w st.S i).2.1
      (fitCallArgs wredges st.w st.S i).2.2.1 (fitCallArgs wredges st.w st.S i).2.2.2 with
  | error e => rw [hpf] at hstep; cases hstep
  | ok tc =>
      rw [hpf] at hstep
      set ms := bandMask (wredges.getD i 0) (wredges.getD (i + 1) 0) st.w with hms
      have hstep2 : Except.ok (ε := ε) { st with T := st.T.set i tc.1, C := st.C.set i tc.2, Sfit := writeBand planck tc.1 tc.2 ms st.w st.Sfit } = Except.ok st' := hstep
      have hst : st' = { st with T := st.T.set i tc.1, C := st.C.set i tc.2, Sfit := writeBand planck tc.1 tc.2 ms st.w st.Sfit } := by
        injection hstep2 with h
        exact h.symm
      subst hst
      refine ⟨rfl, rfl, List.length_set _ _ _, List.length_set _ _ _,
        writeBand_length _ _ _ _ _ _, ?_, ?_, ?_, ?_⟩
      · intro k hk
        exact getD_set_ne st.T i k tc.1 0 (Ne.symm hk)
      · intro k hk
        exact getD_set_ne st.C i k tc.2 0 (Ne.symm hk)
      · intro k hklen hmask
        apply writeBand_getD_false
        rw [hms, bandMask_getD_maskAt wredges st.w i k hklen]
        exact hmask
      · intro k hklen
        apply writeBand_getD_false
        apply List.getD_eq_default
        rw [hms, bandMask_length]
        exact hklen

end SolarFit

namespace SolarFit

/-! ## C1 / C5: behaviour on empty bands and uncovered samples -/

/-- C1 (code evaluation): on the dataset `w = [2]`, `S = [10]`, bands 0 and
6 (and four others) select zero samples; the loop performs no emptiness
check — the external fitter is called with empty arrays and the constant
guess (the call carries no band index and no edges), and with a total
fitter the loop completes with `.ok`, silently recording the fitter's
`(7, 11)` for every empty band. -/
theorem C1_no_empty_band_check :
    fitCallArgs wr [2] [10] 0 = ([], [], [], (5800, 1)) ∧
    fitCallArgs wr [2] [10] 6 = ([], [], [], (5800, 1)) ∧
    bandLoop pfitConst planckLin wr [2] [10] =
      .ok ⟨[2], [10], [7, 7, 7, 7, 7, 7, 7, 7], [11, 11, 11, 11, 11, 11, 11, 11], [154]⟩ := by
  refine ⟨?_, ?_, ?_⟩
  · norm_num [fitCallArgs, bandMask, select, wr]
  · norm_num [fitCallArgs, bandMask, select, wr]
  · rw [bandLoop, show List.range (wr.length - 1) = [0, 1, 2, 3, 4, 5, 6, 7] from by decide,
      show wr.length - 1 = 8 from by decide]
    norm_num [List.foldlM, Bind.bind, Except.bind, Pure.pure, Except.pure, bandStep, pfitConst,
      fitCallArgs, bandMask, select, writeBand, planckLin, wr, List.replicate, List.set]

/-- C5 (code evaluation): with edges `[0, 1, 2]` and dataset wavelength 5
(beyond the last edge), no band selects the sample; with a total fitter
the loop nevertheless completes with `.ok` and the assembled fit is left
silently at `[0]` — no failure, no anomaly flag. -/
theorem C5_uncovered_sample_silent :
    bandLoop pfitConst planckLin [0, 1, 2] [5] [42] =
      .ok ⟨[5], [42], [7, 7], [11, 11], [0]⟩ ∧
    (∀ i, i < 2 → maskAt [0, 1, 2] i 5 = false) := by
  refine ⟨?_, by decide⟩
  rw [bandLoop, show List.range (([0, 1, 2] : List ℚ).length - 1) = [0, 1] from by decide,
    show (([0, 1, 2] : List ℚ)).length - 1 = 2 from by decide]
  norm_num [List.foldlM, Bind.bind, Except.bind, Pure.pure, Except.pure, bandStep, pfitConst,
    fitCallArgs, bandMask, select, writeBand, planckLin, List.replicate, List.set]

/-! ## C4: the assembled fit -/

theorem bandStep_ok_eq {ε : Type}
    (pfit : List ℚ → List ℚ → List ℚ → ℚ × ℚ → Except ε (ℚ × ℚ))
    (planck : ℚ → ℚ → ℚ) (wredges : List ℚ) (st st' : ScriptState) (i : ℕ)
    (hstep : bandStep pfit planck wredges st i = .ok st') :
    ∃ tc : ℚ × ℚ,
      pfit (fitCallArgs wredges st.w st.S i).1 (fitCallArgs wredges st.w st.S i).2.1
        (fitCallArgs wredges st.w st.S i).2.2.1 (fitCallArgs wredges st.w st.S i).2.2.2 =
          .ok tc ∧
      st' = { st with T := st.T.set i tc.1, C := st.C.set i tc.2, Sfit := writeBand planck tc.1 tc.2 (bandMask (wredges.getD i 0) (wredges.getD (i + 1) 0) st.w) st.w st.Sfit } := by
  unfold bandStep at hstep
  cases hpf : pfit (fitCallArgs wredges st.w st.S i).1 (fitCallArgs wredges st.w st.S i).2.1
      (fitCallArgs wredges st.w st.S i).2.2.1 (fitCallArgs wredges st.w st.S i).2.2.2 with
  | error e => rw [hpf] at hstep; cases hstep
  | ok tc =>
      rw [hpf] at hstep
      refine ⟨tc, rfl, ?_⟩
      have hstep2 : Except.ok (ε := ε) { st with T := st.T.set i tc.1, C := st.C.set i tc.2, Sfit := writeBand planck tc.1 tc.2 (bandMask (wredges.getD i 0) (wredges.getD (i + 1) 0) st.w) st.w st.Sfit } = Except.ok st' := hstep
      injection hstep2 with h
      exact h.symm

theorem foldlM_range_succ_ok {ε σ : Type} (f : σ → ℕ → Except ε σ) (b : σ) (m : ℕ)
    (st' : σ) (h : (List.range (m + 1)).foldlM f b = .ok st') :
    ∃ stm, (List.range m).foldlM f b = .ok stm ∧ f stm m = .ok st' := by
  rw [List.range_succ, List.foldlM_append] at h
  cases hmid : (List.range m).foldlM f b with
  | error e =>
      rw [hmid] at h
      simp [Bind.bind, Except.bind] at h
  | ok stm =>
      rw [hmid] at h
      cases hf : f stm m with
      | error e =>
          rw [show (Except.ok stm >>= fun b' => List.foldlM f b' [m]) =
            List.foldlM f stm [m] from rfl] at h
          simp [List.foldlM_cons, List.foldlM_nil, hf, Bind.bind, Except.bind] at h
      | ok x =>
          rw [show (Except.ok stm >>= fun b' => List.foldlM f b' [m]) =
            List.foldlM f stm [m] from rfl] at h
          simp only [List.foldlM_cons, List.foldlM_nil, hf, Bind.bind, Except.bind,
            Pure.pure, Except.pure] at h
          injection h with h
          subst h
          exact ⟨stm, rfl, hf⟩

theorem bandStep_inv {ε : Type}
    (pfit : List ℚ → List ℚ → List ℚ → ℚ × ℚ → Except ε (ℚ × ℚ))
    (planck : ℚ → ℚ → ℚ) (wredges ws Sm : List ℚ)
    (hsort : strictIncr wredges = true) (hlen : ws.length = Sm.length)
    (m : ℕ) (hm : m < wredges.length - 1) (st st' : ScriptState)
    (hinv : LoopInv planck wredges ws Sm m st)
    (hstep : bandStep pfit planck wredges st m = .ok st') :
    LoopInv planck wredges ws Sm (m + 1) st' := by
  obtain ⟨hw, hS, hT, hC, hF, hzero, hval⟩ := hinv
  obtain ⟨tc, hpf, rfl⟩ := bandStep_ok_eq pfit planck wredges st st' m hstep
  refine ⟨hw, hS, by simpa [List.length_set] using hT, by simpa [List.length_set] using hC,
    by rw [show ({ st with T := st.T.set m tc.1, C := st.C.set m tc.2, Sfit := writeBand planck tc.1 tc.2 (bandMask (wredges.getD m 0) (wredges.getD (m + 1) 0) st.w) st.w st.Sfit } : ScriptState).Sfit = writeBand planck tc.1 tc.2 (bandMask (wredges.getD m 0) (wredges.getD (m + 1) 0) st.w) st.w st.Sfit from rfl, writeBand_length]; exact hF,
    ?_, ?_⟩
  · intro k hk hall
    have hmaskm : maskAt wredges m (ws.getD k 0) = false := hall m (Nat.lt_succ_self m)
    show (writeBand planck tc.1 tc.2
      (bandMask (wredges.getD m 0) (wredges.getD (m + 1) 0) st.w) st.w st.Sfit).getD k 0 = 0
    rw [writeBand_getD_false]
    · exact hzero k hk (fun i hi => hall i (Nat.lt_succ_of_lt hi))
    · rw [hw, bandMask_getD_maskAt wredges ws m k hk]
      exact hmaskm
  · intro k hk i hi hmask
    rcases Nat.lt_or_ge i m with him | him
    · have hmaskm : maskAt wredges m (ws.getD k 0) = false := by
        by_contra hmm
        exact maskAt_disjoint wredges hsort (ws.getD k 0) i m him hm hmask
          (Bool.not_eq_false _ ▸ hmm)
      show (writeBand planck tc.1 tc.2
        (bandMask (wredges.getD m 0) (wredges.getD (m + 1) 0) st.w) st.w st.Sfit).getD k 0 = _
      rw [writeBand_getD_false]
      · rw [show ({ st with T := st.T.set m tc.1, C := st.C.set m tc.2, Sfit := writeBand planck tc.1 tc.2 (bandMask (wredges.getD m 0) (wredges.getD (m + 1) 0) st.w) st.w st.Sfit } : ScriptState).T = st.T.set m tc.1 from rfl,
          getD_set_ne st.T m i tc.1 0 (by omega),
          show ({ st with T := st.T.set m tc.1, C := st.C.set m tc.2, Sfit := writeBand planck tc.1 tc.2 (bandMask (wredges.getD m 0) (wredges.getD (m + 1) 0) st.w) st.w st.Sfit } : ScriptState).C = st.C.set m tc.2 from rfl,
          getD_set_ne st.C m i tc.2 0 (by omega)]
        exact hval k hk i him hmask
      · rw [hw, bandMask_getD_maskAt wredges ws m k hk]
        by_contra hmm
        exact maskAt_disjoint wredges hsort (ws.getD k 0) i m him hm hmask
          (Bool.not_eq_false _ ▸ hmm)
    · have hieq : i = m := by omega
      subst hieq
      show (writeBand planck tc.1 tc.2
        (bandMask (wredges.getD i 0) (wredges.getD (i + 1) 0) st.w) st.w st.Sfit).getD k 0 = _
      rw [writeBand_getD_true]
      · rw [show ({ st with T := st.T.set i tc.1, C := st.C.set i tc.2, Sfit := writeBand planck tc.1 tc.2 (bandMask (wredges.getD i 0) (wredges.getD (i + 1) 0) st.w) st.w st.Sfit } : ScriptState).T = st.T.set i tc.1 from rfl,
          getD_set_self st.T i tc.1 0 (by omega),
          show ({ st with T := st.T.set i tc.1, C := st.C.set i tc.2, Sfit := writeBand planck tc.1 tc.2 (bandMask (wredges.getD i 0) (wredges.getD (i + 1) 0) st.w) st.w st.Sfit } : ScriptState).C = st.C.set i tc.2 from rfl,
          getD_set_self st.C i tc.2 0 (by omega), hw]
      · rw [hw]
        exact hk
      · rw [hF, ← hlen]
        exact hk
      · rw [hw, bandMask_getD_maskAt wredges ws i k hk]
        exact hmask

theorem bandLoop_inv {ε : Type}
    (pfit : List ℚ → List ℚ → List ℚ → ℚ × ℚ → Except ε (ℚ × ℚ))
    (planck : ℚ → ℚ → ℚ) (wredges ws Sm : List ℚ)
    (hsort : strictIncr wredges = true) (hlen : ws.length = Sm.length) :
    ∀ m, m ≤ wredges.length - 1 → ∀ st',
      (List.range m).foldlM (bandStep pfit planck wredges)
        (⟨ws, Sm, List.replicate (wredges.length - 1) 0,
          List.replicate (wredges.length - 1) 0, List.replicate Sm.length 0⟩ : ScriptState) =
        .ok st' →
      LoopInv planck wredges ws Sm m st' := by
  intro m
  induction m with
  | zero =>
      intro _ st' h
      have h2 : Except.ok (ε := ε) (⟨ws, Sm, List.replicate (wredges.length - 1) 0,
          List.replicate (wredges.length - 1) 0, List.replicate Sm.length 0⟩ : ScriptState) =
          .ok st' := h
      injection h2 with h2
      subst h2
      exact ⟨rfl, rfl, List.length_replicate _ _, List.length_replicate _ _,
        List.length_replicate _ _, fun k _ _ => getD_replicate_zero _ _,
        fun k _ i hi => absurd hi (Nat.not_lt_zero i)⟩
  | succ m ih =>
      intro hm1 st' h
      obtain ⟨stm, hmid, hstep⟩ := foldlM_range_succ_ok _ _ m st' h
      exact bandStep_inv pfit planck wredges ws Sm hsort hlen m (by omega) stm st'
        (ih (by omega) stm hmid) hstep

/-- C4: when the band loop completes, the assembled fit still has the
input spectrum's length; every position selected by band `i`'s mask holds
exactly `Planck(wavelength, T[i]) * C[i]` (and the selecting band is
unique, so the position was written exactly once); and every position
selected by no band still holds its initial zero. -/
theorem C4_assembled_fit {ε : Type}
    (pfit : List ℚ → List ℚ → List ℚ → ℚ × ℚ → Except ε (ℚ × ℚ))
    (planck : ℚ → ℚ → ℚ) (wredges ws Sm : List ℚ) (st : ScriptState)
    (hsort : strictIncr wredges = true) (hlen : ws.length = Sm.length)
    (hok : bandLoop pfit planck wredges ws Sm = .ok st) :
    st.Sfit.length = Sm.length ∧
    (∀ k, k < ws.length → ∀ i, i < wredges.length - 1 →
      maskAt wredges i (ws.getD k 0) = true →
      st.Sfit.getD k 0 = planck (ws.getD k 0) (st.T.getD i 0) * st.C.getD i 0) ∧
    (∀ k, k < ws.length →
      (∀ i, i < wredges.length - 1 → maskAt wredges i (ws.getD k 0) = false) →
      st.Sfit.getD k 0 = 0) ∧
    (∀ x i j, i < wredges.length - 1 → j < wredges.length - 1 →
      maskAt wredges i x = true → maskAt wredges j x = true → i = j) := by
  have hinv := bandLoop_inv pfit planck wredges ws Sm hsort hlen
    (wredges.length - 1) (le_refl _) st hok
  obtain ⟨hw, hS, hT, hC, hF, hzero, hval⟩ := hinv
  refine ⟨hF, fun k hk i hi hm => hval k hk i hi hm, hzero, ?_⟩
  intro x i j hi hj hmi hmj
  by_contra hne
  rcases lt_trichotomy i j with h | h | h
  · exact maskAt_disjoint wredges hsort x i j h hj hmi hmj
  · exact hne h
  · exact maskAt_disjoint wredges hsort x j i h hi hmj hmi

/-- Witness for C4 on `w = [2]`, `S = [10]`, the script's edges, a total
fitter returning `(7, 11)` and a concrete Planck stand-in: the sample at
index 0 lies in band 5 and the assembled fit there equals
`planckLin 2 7 * 11 = 154`. -/
theorem C4_assembled_fit_witness :
    (strictIncr wr = true ∧ ([2] : List ℚ).length = ([10] : List ℚ).length ∧
      bandLoop pfitConst planckLin wr [2] [10] =
        .ok ⟨[2], [10], [7, 7, 7, 7, 7, 7, 7, 7], [11, 11, 11, 11, 11, 11, 11, 11], [154]⟩ ∧
      maskAt wr 5 (([2] : List ℚ).getD 0 0) = true) ∧
    ([154] : List ℚ).getD 0 0 =
      planckLin (([2] : List ℚ).getD 0 0) (([7, 7, 7, 7, 7, 7, 7, 7] : List ℚ).getD 5 0) *
        ([11, 11, 11, 11, 11, 11, 11, 11] : List ℚ).getD 5 0 := by
  have hok : bandLoop pfitConst planckLin wr [2] [10] =
      .ok ⟨[2], [10], [7, 7, 7, 7, 7, 7, 7, 7], [11, 11, 11, 11, 11, 11, 11, 11], [154]⟩ := by
    rw [bandLoop, show List.range (wr.length - 1) = [0, 1, 2, 3, 4, 5, 6, 7] from by decide,
      show wr.length - 1 = 8 from by decide]
    norm_num [List.foldlM, Bind.bind, Except.bind, Pure.pure, Except.pure, bandStep, pfitConst,
      fitCallArgs, bandMask, select, writeBand, planckLin, wr, List.replicate, List.set]
  have hmask : maskAt wr 5 (([2] : List ℚ).getD 0 0) = true := by norm_num [maskAt, wr]
  refine ⟨⟨by norm_num [strictIncr, wr], rfl, hok, hmask⟩, ?_⟩
  exact (C4_assembled_fit pfitConst planckLin wr [2] [10] _
    (by norm_num [strictIncr, wr]) rfl hok).2.1 0 (by norm_num) 5 (by norm_num [wr]) hmask

end SolarFit

namespace SolarFit

/-- Witness for C10: one concrete iteration (band 5 on `w = [2]`) writes
`T[5]`, `C[5]` and the masked `Sfit` position only; entry 0 of `T` and the
out-of-range `Sfit` read are unchanged. -/
theorem C10_band_step_frame_witness :
    (bandStep pfitConst planckLin wr
        ⟨[2], [10], List.replicate 8 0, List.replicate 8 0, [0]⟩ 5 =
      .ok ⟨[2], [10], [0, 0, 0, 0, 0, 7, 0, 0], [0, 0, 0, 0, 0, 11, 0, 0], [154]⟩) ∧
    ([0, 0, 0, 0, 0, 7, 0, 0] : List ℚ).getD 0 0 = (List.replicate 8 (0 : ℚ)).getD 0 0 ∧
    ([154] : List ℚ).getD 1 0 = ([0] : List ℚ).getD 1 0 := by
  have hstep : bandStep pfitConst planckLin wr
      ⟨[2], [10], List.replicate 8 0, List.replicate 8 0, [0]⟩ 5 =
      .ok ⟨[2], [10], [0, 0, 0, 0, 0, 7, 0, 0], [0, 0, 0, 0, 0, 11, 0, 0], [154]⟩ := by
    norm_num [bandStep, pfitConst, fitCallArgs, bandMask, select, writeBand, planckLin, wr,
      List.replicate, List.set]
  have h := C10_band_step_frame pfitConst planckLin wr _ _ 5 hstep
  exact ⟨hstep, h.2.2.2.2.2.1 0 (by norm_num), h.2.2.2.2.2.2.2.2 1 (by norm_num)⟩

end SolarFit
